import Mathlib

/-!
# Verification of the YARA lexical annotator (`src/yaraLanguage.ts`)

This file is a shallow embedding of the `highlightYara` function of
`yaraLanguage.ts`.  The function runs twelve JavaScript regular expressions
over the full document text, pools all matches as candidates
`{start, end, decoration, priority}`, sorts them by `(start, priority)`
(JavaScript `Array.prototype.sort` is stable), and then walks the sorted
list once, accepting a candidate exactly when it overlaps no previously
accepted span (`current.start < added.end && current.end > added.start`).

The text is modelled as `List Char`; positions are `Nat` indices into that
list.  Each regular expression is modelled by a `...MatchAt` function that,
given the character immediately before the current position (for `\b`, `^`
and look-behind assertions) and the suffix of the text starting at the
current position, returns `some n` when the regex matches a prefix of
length `n` of that suffix, and `none` otherwise.  The semantics of each
`...MatchAt` follows the JavaScript backtracking semantics of the
corresponding regex literal, as explained in the comment next to it.
The driver `scanGo` mirrors the `while ((match = re.exec(text)) !== null)`
loops: it finds the leftmost match at or after the end of the previous
match (every regex in the catalogue only produces non-empty matches, so
`lastIndex` handling for empty matches never triggers).
-/

namespace Yara

/-! ## Character classes (JavaScript regex semantics) -/

/-- JavaScript `\w`: `[A-Za-z0-9_]`. -/
def isWordChar (c : Char) : Bool :=
  (('a' ≤ c) && (c ≤ 'z')) || (('A' ≤ c) && (c ≤ 'Z')) ||
  (('0' ≤ c) && (c ≤ '9')) || c = '_'

/-- `\w` test on an optional character (used for the character left of the
current position; `none` means start of input, which is a non-word side). -/
def isWordOpt : Option Char → Bool
  | none => false
  | some c => isWordChar c

/-- JavaScript line terminators: the characters that `.` does not match and
that `^`/`$` (with the `m` flag) anchor around. -/
def isLineTerm (c : Char) : Bool :=
  c = '\n' || c = '\r' || c = '\u2028' || c = '\u2029'

/-- JavaScript `\s` (whitespace class). -/
def isJsSpace (c : Char) : Bool :=
  c = ' ' || c = '\t' || c = '\n' || c = '\r' || c = '\x0b' || c = '\x0c' ||
  c = '\u00A0' || c = '\u1680' || (('\u2000' ≤ c) && (c ≤ '\u200A')) ||
  c = '\u2028' || c = '\u2029' || c = '\u202F' || c = '\u205F' ||
  c = '\u3000' || c = '\uFEFF'

/-- `\d`. -/
def isDigit (c : Char) : Bool := ('0' ≤ c) && (c ≤ '9')

/-- `[a-fA-F\d]` (hex digit). -/
def isHexDigit (c : Char) : Bool :=
  isDigit c || (('a' ≤ c) && (c ≤ 'f')) || (('A' ≤ c) && (c ≤ 'F'))

/-- `[a-fA-F\d?]` (hex digit or wildcard, for YARA hex byte patterns). -/
def isHexQ (c : Char) : Bool := isHexDigit c || c = '?'

/-- `[a-zA-Z_]` (first character of a rule name). -/
def isAlphaUnd (c : Char) : Bool :=
  (('a' ≤ c) && (c ≤ 'z')) || (('A' ≤ c) && (c ≤ 'Z')) || c = '_'

/-- `[-+\/*=<>:]` (the operator character set of `operatorRegex`). -/
def isOperatorChar (c : Char) : Bool :=
  c = '-' || c = '+' || c = '/' || c = '*' || c = '=' || c = '<' ||
  c = '>' || c = ':'

/-- `[.\w]` test on an optional character (for the look-around assertions of
`hexPatternRegex`); `none` (start/end of input) is outside the class. -/
def isDotOrWordOpt : Option Char → Bool
  | none => false
  | some c => c = '.' || isWordChar c

/-- `^` with the `m` flag holds at the start of input or right after a line
terminator. -/
def atLineStart : Option Char → Bool
  | none => true
  | some c => isLineTerm c

/-! ## The individual pattern matchers -/

/-- Search for the closing `*/` of a block comment: `findCommentClose l`
returns `some k` when `k` is the least index such that `*/` occurs in `l`
at index `k`, and `none` when `l` contains no `*/`.  This is the lazy
`[\s\S]*?\*\/` part of `multiCommentRegex`: the lazy quantifier stops at
the nearest `*/`. -/
def findCommentClose : List Char → Option Nat
  | [] => none
  | c :: rest =>
    if c = '*' ∧ rest.head? = some '/' then some 0
    else (findCommentClose rest).map (· + 1)

/-- `multiCommentRegex = /\/\*[\s\S]*?\*\//g`: `/*`, then (lazily) anything
up to and including the nearest `*/`.  An unterminated `/*` does not match
at all, because the regex requires the literal `*/`. -/
def multiCommentMatchAt : List Char → Option Nat
  | c1 :: c2 :: rest =>
    if c1 = '/' ∧ c2 = '*' then (findCommentClose rest).map (· + 4) else none
  | _ => none

/-- `singleCommentRegex = /\/\/.*$/gm`: `//` and then `.` (greedy, stopping
at a line terminator); `$` in multiline mode then holds at the stopping
point (end of input or before a line terminator), so the match is `//`
followed by the rest of the line. -/
def singleCommentMatchAt : List Char → Option Nat
  | c1 :: c2 :: rest =>
    if c1 = '/' ∧ c2 = '/' then
      some (2 + (rest.takeWhile (fun c => !isLineTerm c)).length)
    else none
  | _ => none

/-- The `(?:[^\\"]|\\.)*?(?:"|$)` part of `stringRegex`, applied after the
opening quote.  Lazily, at each point the close (`"` or absolute end of
input — the regex has no `m` flag, so `$` is end of input only) is tried
first; otherwise one repetition consumes either a single character that is
not `\` or `"` (line terminators included, it is a character class), or a
backslash followed by one non-line-terminator character (`.`).  When a
backslash is followed by a line terminator or by the end of input, no
alternative applies and the whole match attempt fails. -/
def stringBodyLen : List Char → Option Nat
  | [] => some 0
  | [c] =>
    if c = '"' then some 1
    else if c = '\\' then none
    else some 1
  | c :: d :: rest =>
    if c = '"' then some 1
    else if c = '\\' then
      if isLineTerm d then none else (stringBodyLen rest).map (· + 2)
    else (stringBodyLen (d :: rest)).map (· + 1)

/-- `stringRegex = /"(?:[^\\"]|\\.)*?(?:"|$)/g`. -/
def stringMatchAt : List Char → Option Nat
  | c :: rest => if c = '"' then (stringBodyLen rest).map (· + 1) else none
  | [] => none

/-- `variableRegex = /\$\w*/g`: a dollar sign and then greedily any word
characters (a bare `$` is a match of length 1). -/
def variableMatchAt : List Char → Option Nat
  | c :: rest =>
    if c = '$' then some (1 + (rest.takeWhile isWordChar).length) else none
  | [] => none

/-- `metaRegex = /^#.*$/gm`: at a line start, `#` and then the rest of the
line. -/
def metaMatchAt (prev : Option Char) : List Char → Option Nat
  | c :: rest =>
    if c = '#' ∧ atLineStart prev then
      some (1 + (rest.takeWhile (fun d => !isLineTerm d)).length)
    else none
  | [] => none

/-- `hexNumberRegex = /\b0x[a-fA-F\d]+\b/g`.  Because of the two `\b`
assertions and the greedy `[a-fA-F\d]+`, the regex matches at a position
exactly when the maximal `\w`-run starting there (with a non-word character
or the start of input before it) is `0x` followed by one or more hex
digits; the match is that whole run. -/
def hexNumberMatchAt (prev : Option Char) (l : List Char) : Option Nat :=
  if isWordOpt prev then none
  else
    let run := l.takeWhile isWordChar
    if run.take 2 = ['0', 'x'] ∧ run.drop 2 ≠ [] ∧ (run.drop 2).all isHexDigit
    then some run.length
    else none

/-- `decimalRegex = /\b(?:\.\d+|\d+\.?\d*)\b/g`, with JavaScript
backtracking semantics:
* First alternative `\.\d+`: the first matched character is `.` (non-word),
  so the leading `\b` requires the previous character to be a word
  character; then one or more digits (greedy), and the trailing `\b`
  requires the character after the digits to be a non-word character (no
  shorter digit count can satisfy it, since the digit after it would be a
  word character).
* Second alternative `\d+\.?\d*`: leading `\b` requires a non-word
  character (or start of input) before; `\d+` takes the maximal digit run
  `d1` (shrinking it never helps: the following `\.?\d*` would re-consume
  the digits, or stop before a digit and fail the trailing `\b`).  If a `.`
  follows, the greedy `\.?` takes it and `\d*` takes the maximal digit run
  `d2` after it.  The trailing `\b` then accepts the full `d1.d2` when the
  next character is not a word character; otherwise backtracking shrinks
  `\d*`, and every non-empty proper prefix of `d2` fails `\b` (a digit
  follows), so the next attempt is `\d* = ε`, i.e. the match `d1.`, which
  satisfies `\b` exactly when the character after `.` is a word character;
  as a last resort `\.? = ε` gives the match `d1`, whose trailing `\b`
  always holds since the next character is the non-word `.`.  If no `.`
  follows `d1`, the match is `d1` provided the next character is not a word
  character (otherwise every alternative fails). -/
def decimalMatchAt (prev : Option Char) (l : List Char) : Option Nat :=
  match l with
  | [] => none
  | c :: rest =>
    if c = '.' then
      if isWordOpt prev then
        let d := (rest.takeWhile isDigit).length
        if 1 ≤ d ∧ !isWordOpt ((rest.drop d).head?) then some (1 + d)
        else none
      else none
    else if isDigit c then
      if isWordOpt prev then none
      else
        let k := (rest.takeWhile isDigit).length
        let after1 := rest.drop k
        if after1.head? = some '.' then
          let rest2 := after1.tail
          let d2 := (rest2.takeWhile isDigit).length
          if 1 ≤ d2 then
            if !isWordOpt ((rest2.drop d2).head?) then some (1 + k + 1 + d2)
            else some (1 + k + 1)
          else
            if isWordOpt rest2.head? then some (1 + k + 1)
            else some (1 + k)
        else
          if !isWordOpt after1.head? then some (1 + k) else none
    else none

/-- The `([a-fA-F\d?]{2})+` part of `hexPatternRegex` with its trailing
look-ahead `(?![.\w])`: greedily `k` pairs are taken from the maximal
`[a-fA-F\d?]`-run, and backtracking reduces `k` one pair at a time until
the character after the `2*k` consumed characters is outside `[.\w]` (or
the input ends there).  `hexPatternTryK maxk l` performs that search,
returning the matched length `2*k`. -/
def hexPatternTryK : Nat → List Char → Option Nat
  | 0, _ => none
  | k + 1, l =>
    if !isDotOrWordOpt (l.drop (2 * (k + 1))).head? then some (2 * (k + 1))
    else hexPatternTryK k l

/-- `hexPatternRegex = /(?<![.\w])([a-fA-F\d?]{2})+(?![.\w])/g`. -/
def hexPatternMatchAt (prev : Option Char) (l : List Char) : Option Nat :=
  if isDotOrWordOpt prev then none
  else hexPatternTryK ((l.takeWhile isHexQ).length / 2) l

/-- `atomRegex = /\b(true|false)\b/g`.  With a `\b` on both sides, the
regex matches at a position exactly when the maximal `\w`-run starting
there (with a non-word side before it) is the whole word `true` or
`false`. -/
def atomMatchAt (prev : Option Char) (l : List Char) : Option Nat :=
  if isWordOpt prev then none
  else
    let run := l.takeWhile isWordChar
    if String.mk run = "true" ∨ String.mk run = "false" then some run.length
    else none

/-- `operatorRegex = /[-+\/*=<>:]+/g`: a maximal run of operator
characters. -/
def operatorMatchAt : List Char → Option Nat
  | c :: rest =>
    if isOperatorChar c then some (1 + (rest.takeWhile isOperatorChar).length)
    else none
  | [] => none

/-- The closed keyword vocabulary of `keywordRegex`, in source order. -/
def yaraKeywords : List String :=
  ["all", "and", "any", "ascii", "at", "base64", "base64wide", "condition",
   "contains", "endswith", "entrypoint", "filesize", "for", "fullword",
   "global", "icontains", "iendswith", "import", "in", "include", "int8",
   "int16", "int32", "int8be", "int16be", "int32be", "istartswith",
   "matches", "meta", "nocase", "not", "of", "or", "private", "rule",
   "startswith", "strings", "them", "uint8", "uint16", "uint32", "uint8be",
   "uint16be", "uint32be", "wide", "xor"]

/-- `keywordRegex = /\b(all|and|...|xor)\b/g`.  As for `atomRegex`, the two
`\b` assertions force the match to be the full maximal `\w`-run starting at
the position, and the run must be one of the vocabulary words (which
alternative of the alternation matches it is irrelevant: all the words are
distinct, so at most one equals the run). -/
def keywordMatchAt (prev : Option Char) (l : List Char) : Option Nat :=
  if isWordOpt prev then none
  else
    let run := l.takeWhile isWordChar
    if String.mk run ∈ yaraKeywords then some run.length else none

/-- `ruleDeclarationRegex = /\b(rule)(\s+)([a-zA-Z_]\w{0,127})\s*\{/g`.
Returns `some (wsLen, nameLen, totalLen)`: the length of the whitespace
group `(\s+)`, the length of the rule-name group, and the length of the
whole match (up to and including the `{`).  The greedy `\s+`, `\w{0,127}`
and `\s*` never need backtracking except in one case: when the maximal
word run after the name head is 128 characters or longer, `\w{0,127}`
leaves word characters behind it, and then no shorter choice can make
`\s*\{` match (the next character would be a word character), so the whole
attempt fails. -/
def ruleDeclMatchAt (prev : Option Char) (l : List Char) : Option (Nat × Nat × Nat) :=
  if isWordOpt prev then none
  else
    match l with
    | 'r' :: 'u' :: 'l' :: 'e' :: rest =>
      let ws := (rest.takeWhile isJsSpace).length
      if ws = 0 then none
      else
        match rest.drop ws with
        | h :: rest3 =>
          if isAlphaUnd h then
            let tail := (rest3.takeWhile isWordChar).length
            if 128 ≤ tail then none
            else
              let rest4 := rest3.drop tail
              let ws2 := (rest4.takeWhile isJsSpace).length
              match (rest4.drop ws2).head? with
              | some '{' => some (ws, 1 + tail, 4 + ws + 1 + tail + ws2 + 1)
              | _ => none
          else none
        | [] => none
    | _ => none

/-! ## The scan driver

`scanGo m skip pos prev l` mirrors the `while ((match = re.exec(text)))`
loop: `l` is the suffix of the text starting at absolute position `pos`,
`prev` the character just before it, and `skip` the number of positions
still inside the previous match (the regex's `lastIndex`), at which no new
match attempt is made.  At each position at or past `lastIndex` the regex
is tried; on success a `(start, end)` pair is recorded and scanning resumes
at the end of the match.  (All matchers return non-empty matches, so the
`exec` special case for empty matches never arises.) -/

def scanGo (m : Option Char → List Char → Option Nat) :
    Nat → Nat → Option Char → List Char → List (Nat × Nat)
  | _, _, _, [] => []
  | Nat.succ k, pos, _, c :: rest => scanGo m k (pos + 1) (some c) rest
  | 0, pos, prev, c :: rest =>
    match m prev (c :: rest) with
    | some len => (pos, pos + len) :: scanGo m (len - 1) (pos + 1) (some c) rest
    | none => scanGo m 0 (pos + 1) (some c) rest

/-- All matches of one pattern over the whole text, leftmost first. -/
def scanAll (m : Option Char → List Char → Option Nat) (text : List Char) :
    List (Nat × Nat) :=
  scanGo m 0 0 none text

/-- The driver for `ruleDeclarationRegex`, which records two ranges per
match: the `rule` keyword range and the rule-name range (in this order, as
the two `matches.push` calls do). -/
def ruleScanGo :
    Nat → Nat → Option Char → List Char → List ((Nat × Nat) × (Nat × Nat))
  | _, _, _, [] => []
  | Nat.succ k, pos, _, c :: rest => ruleScanGo k (pos + 1) (some c) rest
  | 0, pos, prev, c :: rest =>
    match ruleDeclMatchAt prev (c :: rest) with
    | some (ws, nameLen, total) =>
      ((pos, pos + 4), (pos + 4 + ws, pos + 4 + ws + nameLen)) ::
        ruleScanGo (total - 1) (pos + 1) (some c) rest
    | none => ruleScanGo 0 (pos + 1) (some c) rest

/-! ## Data model: categories, candidates, spans -/

/-- The highlight categories, one per `Decoration.mark` class of the
source (`cm-keyword`, `cm-string`, `cm-comment`, `cm-number`, `cm-meta`,
`cm-variableName`, `cm-def`, `cm-operator`, `cm-atom`). -/
inductive Category where
  | keyword
  | stringLit
  | comment
  | number
  | metaDir
  | variableName
  | ruleName
  | operator
  | atom
deriving DecidableEq

/-- One entry of the `matches` array: `{start, end, decoration, priority}`.
`end` is a Lean keyword, so the field is called `stop` (exclusive end
offset). -/
structure Candidate where
  start : Nat
  stop : Nat
  category : Category
  priority : Nat
deriving DecidableEq

/-- One entry of the `filteredMatches` array (and of the final decoration
set): `{start, end, decoration}`. -/
structure Span where
  start : Nat
  stop : Nat
  category : Category
deriving DecidableEq

/-- Projection performed by `filteredMatches.push({start, end, decoration})`. -/
def toSpan (c : Candidate) : Span := ⟨c.start, c.stop, c.category⟩

/-- Turn the raw ranges of one matcher into candidates with its category
and priority. -/
def rangesToCandidates (cat : Category) (prio : Nat) (rs : List (Nat × Nat)) :
    List Candidate :=
  rs.map fun r => ⟨r.1, r.2, cat, prio⟩

/-! ## The candidate pool -/

def multiCommentMatches (text : List Char) : List (Nat × Nat) :=
  scanAll (fun _ l => multiCommentMatchAt l) text

def singleCommentMatches (text : List Char) : List (Nat × Nat) :=
  scanAll (fun _ l => singleCommentMatchAt l) text

def stringMatches (text : List Char) : List (Nat × Nat) :=
  scanAll (fun _ l => stringMatchAt l) text

def variableMatches (text : List Char) : List (Nat × Nat) :=
  scanAll (fun _ l => variableMatchAt l) text

def metaMatches (text : List Char) : List (Nat × Nat) :=
  scanAll metaMatchAt text

def hexNumberMatches (text : List Char) : List (Nat × Nat) :=
  scanAll hexNumberMatchAt text

def decimalMatches (text : List Char) : List (Nat × Nat) :=
  scanAll decimalMatchAt text

def hexPatternMatches (text : List Char) : List (Nat × Nat) :=
  scanAll hexPatternMatchAt text

def atomMatches (text : List Char) : List (Nat × Nat) :=
  scanAll atomMatchAt text

def operatorMatches (text : List Char) : List (Nat × Nat) :=
  scanAll (fun _ l => operatorMatchAt l) text

def keywordMatches (text : List Char) : List (Nat × Nat) :=
  scanAll keywordMatchAt text

/-- The two candidates pushed per `ruleDeclarationRegex` match: the `rule`
keyword (priority 3, keyword decoration) and the rule name (priority 3,
`cm-def` decoration). -/
def ruleDeclCandidates (text : List Char) : List Candidate :=
  (ruleScanGo 0 0 none text).foldr
    (fun r acc =>
      ⟨r.1.1, r.1.2, Category.keyword, 3⟩ ::
        ⟨r.2.1, r.2.2, Category.ruleName, 3⟩ :: acc) []

/-- The full `matches` array, in the order the source pushes the
candidates: multi-line comments (priority 1), single-line comments (1),
strings (2), rule declarations (3), variables (3), meta directives (4),
hex numbers (5), decimals (5), hex byte patterns (5), boolean atoms (6),
operators (7), keywords (8). -/
def matchesAll (text : List Char) : List Candidate :=
  rangesToCandidates Category.comment 1 (multiCommentMatches text) ++
  rangesToCandidates Category.comment 1 (singleCommentMatches text) ++
  rangesToCandidates Category.stringLit 2 (stringMatches text) ++
  ruleDeclCandidates text ++
  rangesToCandidates Category.variableName 3 (variableMatches text) ++
  rangesToCandidates Category.metaDir 4 (metaMatches text) ++
  rangesToCandidates Category.number 5 (hexNumberMatches text) ++
  rangesToCandidates Category.number 5 (decimalMatches text) ++
  rangesToCandidates Category.number 5 (hexPatternMatches text) ++
  rangesToCandidates Category.atom 6 (atomMatches text) ++
  rangesToCandidates Category.operator 7 (operatorMatches text) ++
  rangesToCandidates Category.keyword 8 (keywordMatches text)

/-! ## Conflict resolution -/

/-- The comparator `(a, b) => a.start !== b.start ? a.start - b.start
: a.priority - b.priority` as an ordering relation: `a` sorts no later
than `b`. -/
def candLe (a b : Candidate) : Prop :=
  a.start < b.start ∨ (a.start = b.start ∧ a.priority ≤ b.priority)

instance : DecidableRel candLe := fun _ _ =>
  inferInstanceAs (Decidable (_ ∨ _))

instance : IsTotal Candidate candLe where
  total a b := by
    rcases Nat.lt_trichotomy a.start b.start with h | h | h
    · exact Or.inl (Or.inl h)
    · rcases Nat.le_total a.priority b.priority with hp | hp
      · exact Or.inl (Or.inr ⟨h, hp⟩)
      · exact Or.inr (Or.inr ⟨h.symm, hp⟩)
    · exact Or.inr (Or.inl h)

instance : IsTrans Candidate candLe where
  trans a b c hab hbc := by
    rcases hab with h1 | ⟨e1, p1⟩ <;> rcases hbc with h2 | ⟨e2, p2⟩
    · exact Or.inl (h1.trans h2)
    · exact Or.inl (e2 ▸ h1)
    · exact Or.inl (e1 ▸ h2)
    · exact Or.inr ⟨e1.trans e2, p1.trans p2⟩

/-- `matches.sort(...)`: JavaScript `Array.prototype.sort` is stable
(ECMAScript 2019), so it is modelled by the stable `insertionSort` with
the `candLe` ordering. -/
def sortMatches (l : List Candidate) : List Candidate :=
  l.insertionSort candLe

/-- The overlap test of the filter loop:
`current.start < added.end && current.end > added.start`. -/
def overlapsSpan (c : Candidate) (a : Span) : Prop :=
  c.start < a.stop ∧ a.start < c.stop

instance : ∀ c a, Decidable (overlapsSpan c a) := fun _ _ =>
  inferInstanceAs (Decidable (_ ∧ _))

/-- One iteration of the filter loop: the candidate is appended to
`filteredMatches` exactly when it overlaps none of the already added
spans (`shouldAdd` stays true). -/
def addIfNoOverlap (acc : List Span) (c : Candidate) : List Span :=
  if acc.any fun a => decide (overlapsSpan c a) then acc else acc ++ [toSpan c]

/-- The `filteredMatches` loop over a candidate list. -/
def filterOverlaps (l : List Candidate) : List Span :=
  l.foldl addIfNoOverlap []

/-- A candidate-level version of the filter that keeps the whole accepted
candidate (the source drops the `priority` field when pushing into
`filteredMatches`); used to reason about which candidate wins. -/
def addIfNoOverlapC (acc : List Candidate) (c : Candidate) : List Candidate :=
  if acc.any fun a => decide (overlapsSpan c (toSpan a)) then acc else acc ++ [c]

def filterOverlapsC (l : List Candidate) : List Candidate :=
  l.foldl addIfNoOverlapC []

/-- The full scan: pool all matches, sort by `(start, priority)`, filter
overlaps.  The final `for (const match of filteredMatches) builder.add ...`
emits exactly this list in this order, so the output decoration set is
modelled by the list itself. -/
def highlightYara (text : List Char) : List Span :=
  filterOverlaps (sortMatches (matchesAll text))

/-- The accepted candidates (with priorities still attached). -/
def acceptedCandidates (text : List Char) : List Candidate :=
  filterOverlapsC (sortMatches (matchesAll text))

/-! ## Lemmas about the scan driver -/

/-- Every `(start, end)` pair recorded by the driver comes from a successful
match of the underlying pattern at the suffix of the text starting at
`start`. -/
theorem mem_scanGo {m : Option Char → List Char → Option Nat} :
    ∀ (l : List Char) (skip pos : Nat) (prev : Option Char) (s e : Nat),
      (s, e) ∈ scanGo m skip pos prev l →
      ∃ d len pr, s = pos + d ∧ e = s + len ∧ m pr (l.drop d) = some len := by
  intro l
  induction l with
  | nil => intro skip pos prev s e h; simp [scanGo] at h
  | cons c rest ih =>
    intro skip pos prev s e h
    cases skip with
    | succ k =>
      simp only [scanGo] at h
      obtain ⟨d, len, pr, h1, h2, h3⟩ := ih k (pos + 1) (some c) s e h
      refine ⟨d + 1, len, pr, by omega, h2, ?_⟩
      simpa using h3
    | zero =>
      rcases hm : m prev (c :: rest) with _ | len
      · simp only [scanGo, hm] at h
        obtain ⟨d, len, pr, h1, h2, h3⟩ := ih 0 (pos + 1) (some c) s e h
        refine ⟨d + 1, len, pr, by omega, h2, ?_⟩
        simpa using h3
      · simp only [scanGo, hm, List.mem_cons] at h
        rcases h with h | h
        · obtain ⟨hs, he⟩ := Prod.mk.injEq .. ▸ h
          exact ⟨0, len, prev, by omega, by omega, by simpa [hs] using hm⟩
        · obtain ⟨d, len2, pr, h1, h2, h3⟩ := ih (len - 1) (pos + 1) (some c) s e h
          refine ⟨d + 1, len2, pr, by omega, h2, ?_⟩
          simpa using h3

/-- If the pattern only reports positive match lengths, all recorded ranges
are non-empty. -/
theorem scanAll_pos {m : Option Char → List Char → Option Nat}
    (hm : ∀ pr l n, m pr l = some n → 0 < n) :
    ∀ (text : List Char) (s e : Nat), (s, e) ∈ scanAll m text → s < e := by
  intro text s e h
  obtain ⟨d, len, pr, h1, h2, h3⟩ := mem_scanGo text 0 0 none s e h
  have := hm pr _ _ h3
  omega

/-! ## Positivity of every matcher (no zero-length matches) -/

theorem multiCommentMatchAt_pos :
    ∀ l n, multiCommentMatchAt l = some n → 0 < n := by
  intro l n h
  match l with
  | [] => simp [multiCommentMatchAt] at h
  | [c] => simp [multiCommentMatchAt] at h
  | c1 :: c2 :: rest =>
    simp only [multiCommentMatchAt] at h
    split at h
    · obtain ⟨a, _, ha⟩ := Option.map_eq_some'.mp h
      omega
    · exact absurd h (by simp)

theorem singleCommentMatchAt_pos :
    ∀ l n, singleCommentMatchAt l = some n → 0 < n := by
  intro l n h
  match l with
  | [] => simp [singleCommentMatchAt] at h
  | [c] => simp [singleCommentMatchAt] at h
  | c1 :: c2 :: rest =>
    simp only [singleCommentMatchAt] at h
    repeat split at h
    all_goals first
      | (injection h with h; omega)
      | injection h

theorem stringMatchAt_pos :
    ∀ l n, stringMatchAt l = some n → 0 < n := by
  intro l n h
  match l with
  | [] => simp [stringMatchAt] at h
  | c :: rest =>
    simp only [stringMatchAt] at h
    split at h
    · obtain ⟨a, _, ha⟩ := Option.map_eq_some'.mp h
      omega
    · exact absurd h (by simp)

theorem variableMatchAt_pos :
    ∀ l n, variableMatchAt l = some n → 0 < n := by
  intro l n h
  match l with
  | [] => simp [variableMatchAt] at h
  | c :: rest =>
    simp only [variableMatchAt] at h
    repeat split at h
    all_goals first
      | (injection h with h; omega)
      | injection h

theorem metaMatchAt_pos :
    ∀ pr l n, metaMatchAt pr l = some n → 0 < n := by
  intro pr l n h
  match l with
  | [] => simp [metaMatchAt] at h
  | c :: rest =>
    simp only [metaMatchAt] at h
    repeat split at h
    all_goals first
      | (injection h with h; omega)
      | injection h

theorem hexNumberMatchAt_pos :
    ∀ pr l n, hexNumberMatchAt pr l = some n → 0 < n := by
  intro pr l n h
  simp only [hexNumberMatchAt] at h
  split at h
  · injection h
  · split at h
    next hc =>
      injection h with h
      cases hw : l.takeWhile isWordChar with
      | nil => rw [hw] at hc; simp at hc
      | cons a as => rw [hw] at h; simp [← h]
    next => injection h

theorem decimalMatchAt_pos :
    ∀ pr l n, decimalMatchAt pr l = some n → 0 < n := by
  intro pr l n h
  simp only [decimalMatchAt] at h
  repeat' split at h
  all_goals first
    | (injection h with h; omega)
    | injection h

theorem hexPatternTryK_pos :
    ∀ k l n, hexPatternTryK k l = some n → 0 < n := by
  intro k
  induction k with
  | zero => intro l n h; simp [hexPatternTryK] at h
  | succ k ih =>
    intro l n h
    simp only [hexPatternTryK] at h
    split at h
    · injection h with h; omega
    · exact ih l n h

theorem hexPatternMatchAt_pos :
    ∀ pr l n, hexPatternMatchAt pr l = some n → 0 < n := by
  intro pr l n h
  simp only [hexPatternMatchAt] at h
  split at h
  · exact absurd h (by simp)
  · exact hexPatternTryK_pos _ _ _ h

theorem atomMatchAt_pos :
    ∀ pr l n, atomMatchAt pr l = some n → 0 < n := by
  intro pr l n h
  simp only [atomMatchAt] at h
  split at h
  · exact absurd h (by simp)
  · split at h
    next hrun =>
      cases hl : l.takeWhile isWordChar with
      | nil => rw [hl] at hrun; exact absurd hrun (by decide)
      | cons a as => rw [hl] at h; simp only [Option.some.injEq] at h; simp [← h]
    next => exact absurd h (by simp)

theorem keywordMatchAt_pos :
    ∀ pr l n, keywordMatchAt pr l = some n → 0 < n := by
  intro pr l n h
  simp only [keywordMatchAt] at h
  split at h
  · exact absurd h (by simp)
  · split at h
    next hrun =>
      cases hl : l.takeWhile isWordChar with
      | nil => rw [hl] at hrun; exact absurd hrun (by decide)
      | cons a as => rw [hl] at h; simp only [Option.some.injEq] at h; simp [← h]
    next => exact absurd h (by simp)

theorem operatorMatchAt_pos :
    ∀ l n, operatorMatchAt l = some n → 0 < n := by
  intro l n h
  match l with
  | [] => simp [operatorMatchAt] at h
  | c :: rest =>
    simp only [operatorMatchAt] at h
    repeat split at h
    all_goals first
      | (injection h with h; omega)
      | injection h

/-- Every pair of ranges recorded by the rule-declaration driver comes from
a successful `ruleDeclMatchAt`, with the keyword range of length 4 and the
name range of the reported name length. -/
theorem mem_ruleScanGo :
    ∀ (l : List Char) (skip pos : Nat) (prev : Option Char) (kp np : Nat × Nat),
      (kp, np) ∈ ruleScanGo skip pos prev l →
      ∃ d ws nameLen total pr,
        ruleDeclMatchAt pr (l.drop d) = some (ws, nameLen, total) ∧
        kp.1 = pos + d ∧ kp.2 = kp.1 + 4 ∧
        np.1 = kp.1 + 4 + ws ∧ np.2 = np.1 + nameLen := by
  intro l
  induction l with
  | nil => intro skip pos prev kp np h; simp [ruleScanGo] at h
  | cons c rest ih =>
    intro skip pos prev kp np h
    cases skip with
    | succ k =>
      simp only [ruleScanGo] at h
      obtain ⟨d, ws, nameLen, total, pr, h1, h2, h3, h4, h5⟩ := ih k (pos + 1) (some c) kp np h
      exact ⟨d + 1, ws, nameLen, total, pr, by simpa using h1, by omega, h3, h4, h5⟩
    | zero =>
      rcases hm : ruleDeclMatchAt prev (c :: rest) with _ | ⟨ws, nameLen, total⟩
      · simp only [ruleScanGo, hm] at h
        obtain ⟨d, ws, nameLen, total, pr, h1, h2, h3, h4, h5⟩ := ih 0 (pos + 1) (some c) kp np h
        exact ⟨d + 1, ws, nameLen, total, pr, by simpa using h1, by omega, h3, h4, h5⟩
      · simp only [ruleScanGo, hm, List.mem_cons] at h
        rcases h with h | h
        · injection h with hk hn
          subst hk
          subst hn
          exact ⟨0, ws, nameLen, total, prev, by simpa using hm, by simp, by simp, by simp, by simp⟩
        · obtain ⟨d, ws2, nameLen2, total2, pr, h1, h2, h3, h4, h5⟩ := ih (total - 1) (pos + 1) (some c) kp np h
          exact ⟨d + 1, ws2, nameLen2, total2, pr, by simpa using h1, by omega, h3, h4, h5⟩

/-- The rule-name group of `ruleDeclarationRegex` is non-empty (it always
contains at least the `[a-zA-Z_]` head character). -/
theorem ruleDeclMatchAt_nameLen_pos :
    ∀ pr l ws n t, ruleDeclMatchAt pr l = some (ws, n, t) → 0 < n := by
  intro pr l ws n t h
  simp only [ruleDeclMatchAt] at h
  split at h
  · exact absurd h (by simp)
  · split at h
    next rest =>
      split at h
      · exact absurd h (by simp)
      · split at h
        · split at h
          · split at h
            · exact absurd h (by simp)
            · split at h
              · simp only [Option.some.injEq, Prod.mk.injEq] at h
                omega
              · exact absurd h (by simp)
          · exact absurd h (by simp)
        · exact absurd h (by simp)
    next => exact absurd h (by simp)


/-! ## Positivity of the candidate pool -/

theorem mem_rangesToCandidates {cat : Category} {prio : Nat}
    {rs : List (Nat × Nat)} {c : Candidate} (h : c ∈ rangesToCandidates cat prio rs) :
    ∃ r ∈ rs, c = ⟨r.1, r.2, cat, prio⟩ := by
  obtain ⟨r, hr, he⟩ := List.mem_map.mp h
  exact ⟨r, hr, he.symm⟩

theorem mem_rulePairs_foldr :
    ∀ (rs : List ((Nat × Nat) × (Nat × Nat))) (c : Candidate),
      c ∈ rs.foldr (fun r acc =>
        (⟨r.1.1, r.1.2, Category.keyword, 3⟩ : Candidate) ::
          (⟨r.2.1, r.2.2, Category.ruleName, 3⟩ : Candidate) :: acc) [] →
      ∃ r, r ∈ rs ∧
        (c = ⟨r.1.1, r.1.2, Category.keyword, 3⟩ ∨
         c = ⟨r.2.1, r.2.2, Category.ruleName, 3⟩) := by
  intro rs
  induction rs with
  | nil => intro c h; simp at h
  | cons r rest ih =>
    intro c h
    simp only [List.foldr_cons, List.mem_cons] at h
    rcases h with h | h | h
    · exact ⟨r, List.mem_cons_self .., Or.inl h⟩
    · exact ⟨r, List.mem_cons_self .., Or.inr h⟩
    · obtain ⟨r2, hr2, hc⟩ := ih c h
      exact ⟨r2, List.mem_cons_of_mem _ hr2, hc⟩

theorem ruleDeclCandidates_pos (text : List Char) :
    ∀ c ∈ ruleDeclCandidates text, c.start < c.stop := by
  intro c hc
  obtain ⟨r, hr, hcase⟩ := mem_rulePairs_foldr _ c hc
  obtain ⟨d, ws, nameLen, total, pr, h1, h2, h3, h4, h5⟩ :=
    mem_ruleScanGo text 0 0 none r.1 r.2 (by simpa using hr)
  have hn := ruleDeclMatchAt_nameLen_pos pr _ _ _ _ h1
  rcases hcase with rfl | rfl
  · show r.1.1 < r.1.2
    omega
  · show r.2.1 < r.2.2
    omega

/-- Every pooled candidate has a non-empty range: no matcher in the
catalogue can report a zero-length match. -/
theorem matchesAll_pos (text : List Char) :
    ∀ c ∈ matchesAll text, c.start < c.stop := by
  intro c hc
  simp only [matchesAll, List.mem_append] at hc
  rcases hc with ((((((((((hc | hc) | hc) | hc) | hc) | hc) | hc) | hc) | hc) | hc) | hc) | hc
  · obtain ⟨r, hr, rfl⟩ := mem_rangesToCandidates hc
    exact scanAll_pos (fun pr l n h => multiCommentMatchAt_pos l n h) text r.1 r.2 hr
  · obtain ⟨r, hr, rfl⟩ := mem_rangesToCandidates hc
    exact scanAll_pos (fun pr l n h => singleCommentMatchAt_pos l n h) text r.1 r.2 hr
  · obtain ⟨r, hr, rfl⟩ := mem_rangesToCandidates hc
    exact scanAll_pos (fun pr l n h => stringMatchAt_pos l n h) text r.1 r.2 hr
  · exact ruleDeclCandidates_pos text c hc
  · obtain ⟨r, hr, rfl⟩ := mem_rangesToCandidates hc
    exact scanAll_pos (fun pr l n h => variableMatchAt_pos l n h) text r.1 r.2 hr
  · obtain ⟨r, hr, rfl⟩ := mem_rangesToCandidates hc
    exact scanAll_pos metaMatchAt_pos text r.1 r.2 hr
  · obtain ⟨r, hr, rfl⟩ := mem_rangesToCandidates hc
    exact scanAll_pos hexNumberMatchAt_pos text r.1 r.2 hr
  · obtain ⟨r, hr, rfl⟩ := mem_rangesToCandidates hc
    exact scanAll_pos decimalMatchAt_pos text r.1 r.2 hr
  · obtain ⟨r, hr, rfl⟩ := mem_rangesToCandidates hc
    exact scanAll_pos hexPatternMatchAt_pos text r.1 r.2 hr
  · obtain ⟨r, hr, rfl⟩ := mem_rangesToCandidates hc
    exact scanAll_pos atomMatchAt_pos text r.1 r.2 hr
  · obtain ⟨r, hr, rfl⟩ := mem_rangesToCandidates hc
    exact scanAll_pos (fun pr l n h => operatorMatchAt_pos l n h) text r.1 r.2 hr
  · obtain ⟨r, hr, rfl⟩ := mem_rangesToCandidates hc
    exact scanAll_pos keywordMatchAt_pos text r.1 r.2 hr

/-! ## Lemmas about the sort -/

theorem sortMatches_sorted (l : List Candidate) :
    List.Pairwise candLe (sortMatches l) :=
  List.sorted_insertionSort candLe l

theorem sortMatches_perm (l : List Candidate) : List.Perm (sortMatches l) l :=
  List.perm_insertionSort candLe l

theorem mem_sortMatches {l : List Candidate} {c : Candidate} :
    c ∈ sortMatches l ↔ c ∈ l :=
  (sortMatches_perm l).mem_iff

theorem sortMatches_pos {text : List Char} :
    ∀ c ∈ sortMatches (matchesAll text), c.start < c.stop := fun c hc =>
  matchesAll_pos text c (mem_sortMatches.mp hc)


/-! ## Lemmas about the overlap filter -/

theorem addIfNoOverlap_pos {acc : List Span} {c : Candidate}
    (h : (acc.any fun a => decide (overlapsSpan c a)) = true) :
    addIfNoOverlap acc c = acc := by
  simp [addIfNoOverlap, h]

theorem addIfNoOverlap_neg {acc : List Span} {c : Candidate}
    (h : (acc.any fun a => decide (overlapsSpan c a)) = false) :
    addIfNoOverlap acc c = acc ++ [toSpan c] := by
  simp [addIfNoOverlap, h]

theorem addIfNoOverlapC_pos {acc : List Candidate} {c : Candidate}
    (h : (acc.any fun a => decide (overlapsSpan c (toSpan a))) = true) :
    addIfNoOverlapC acc c = acc := by
  simp [addIfNoOverlapC, h]

theorem addIfNoOverlapC_neg {acc : List Candidate} {c : Candidate}
    (h : (acc.any fun a => decide (overlapsSpan c (toSpan a))) = false) :
    addIfNoOverlapC acc c = acc ++ [c] := by
  simp [addIfNoOverlapC, h]

/-- The span filter is the candidate filter followed by the projection to
spans (the overlap test only looks at `start` and `stop`, which the
projection preserves). -/
theorem foldl_filter_map :
    ∀ (l : List Candidate) (acc : List Candidate),
      List.foldl addIfNoOverlap (acc.map toSpan) l =
        (List.foldl addIfNoOverlapC acc l).map toSpan := by
  intro l
  induction l with
  | nil => intro acc; simp
  | cons c rest ih =>
    intro acc
    simp only [List.foldl_cons]
    have hany : ((acc.map toSpan).any fun a => decide (overlapsSpan c a)) =
        (acc.any fun a => decide (overlapsSpan c (toSpan a))) := by
      induction acc with
      | nil => rfl
      | cons a as iha => simp only [List.map_cons, List.any_cons, iha]
    rcases hb : acc.any fun a => decide (overlapsSpan c (toSpan a)) with _ | _
    · rw [addIfNoOverlap_neg (hany.trans hb), addIfNoOverlapC_neg hb]
      have hmap : List.map toSpan acc ++ [toSpan c] = List.map toSpan (acc ++ [c]) := by
        simp
      rw [hmap]
      exact ih (acc ++ [c])
    · rw [addIfNoOverlap_pos (hany.trans hb), addIfNoOverlapC_pos hb]
      exact ih acc

theorem filterOverlaps_eq_map (l : List Candidate) :
    filterOverlaps l = (filterOverlapsC l).map toSpan := by
  have := foldl_filter_map l []
  simpa [filterOverlaps, filterOverlapsC] using this

/-- The output of the filter loop extends the accumulator. -/
theorem foldl_addIfNoOverlap_prefix :
    ∀ (l : List Candidate) (acc : List Span),
      ∃ ext, List.foldl addIfNoOverlap acc l = acc ++ ext := by
  intro l
  induction l with
  | nil => intro acc; exact ⟨[], by simp⟩
  | cons c rest ih =>
    intro acc
    simp only [List.foldl_cons]
    rcases hb : acc.any fun a => decide (overlapsSpan c a) with _ | _
    · rw [addIfNoOverlap_neg hb]
      obtain ⟨ext, he⟩ := ih (acc ++ [toSpan c])
      exact ⟨toSpan c :: ext, by simpa using he⟩
    · rw [addIfNoOverlap_pos hb]
      exact ih acc

/-- Everything the filter emits is the projection of some input candidate:
rejected candidates are dropped whole, accepted ones are kept whole, and no
range is ever trimmed or invented. -/
theorem mem_foldl_addIfNoOverlap :
    ∀ (l : List Candidate) (acc : List Span) (s : Span),
      s ∈ List.foldl addIfNoOverlap acc l → s ∈ acc ∨ ∃ c ∈ l, s = toSpan c := by
  intro l
  induction l with
  | nil => intro acc s h; exact Or.inl h
  | cons c rest ih =>
    intro acc s h
    simp only [List.foldl_cons] at h
    rcases hb : acc.any fun a => decide (overlapsSpan c a) with _ | _
    · rw [addIfNoOverlap_neg hb] at h
      rcases ih (acc ++ [toSpan c]) s h with hs | ⟨c2, hc2, he⟩
      · rcases List.mem_append.mp hs with hs | hs
        · exact Or.inl hs
        · exact Or.inr ⟨c, List.mem_cons_self .., List.mem_singleton.mp hs⟩
      · exact Or.inr ⟨c2, List.mem_cons_of_mem _ hc2, he⟩
    · rw [addIfNoOverlap_pos hb] at h
      rcases ih acc s h with hs | ⟨c2, hc2, he⟩
      · exact Or.inl hs
      · exact Or.inr ⟨c2, List.mem_cons_of_mem _ hc2, he⟩

/-- Main invariant of the filter loop: starting from a positive-length,
ascending, non-overlapping accumulator whose spans all begin no later than
any remaining candidate, and feeding it candidates of positive length in
ascending `start` order, the result is again positive-length, ascending and
non-overlapping (`a.stop ≤ b.start` for every earlier/later pair). -/
theorem filter_invariant :
    ∀ (l : List Candidate) (acc : List Span),
      (∀ c ∈ l, c.start < c.stop) →
      List.Pairwise (fun a b : Candidate => a.start ≤ b.start) l →
      (∀ a ∈ acc, a.start < a.stop) →
      List.Pairwise (fun a b : Span => a.stop ≤ b.start) acc →
      (∀ a ∈ acc, ∀ c ∈ l, a.start ≤ c.start) →
      (∀ s ∈ List.foldl addIfNoOverlap acc l, s.start < s.stop) ∧
      List.Pairwise (fun a b : Span => a.stop ≤ b.start)
        (List.foldl addIfNoOverlap acc l) := by
  intro l
  induction l with
  | nil => intro acc _ _ hapos hapw _; exact ⟨hapos, hapw⟩
  | cons c rest ih =>
    intro acc hlpos hlsort hapos hapw hcross
    have hlpos2 : ∀ x ∈ rest, x.start < x.stop :=
      fun x hx => hlpos x (List.mem_cons_of_mem _ hx)
    have hlsort2 := (List.pairwise_cons.mp hlsort).2
    have hhead := (List.pairwise_cons.mp hlsort).1
    simp only [List.foldl_cons]
    rcases hb : acc.any fun a => decide (overlapsSpan c a) with _ | _
    · -- the candidate is accepted
      rw [addIfNoOverlap_neg hb]
      have hnov : ∀ a ∈ acc, ¬ overlapsSpan c a := by
        intro a ha
        have := List.any_eq_false.mp hb a ha
        simpa using this
      have hcpos : c.start < c.stop := hlpos c (List.mem_cons_self ..)
      have hend : ∀ a ∈ acc, a.stop ≤ c.start := by
        intro a ha
        have h1 := hnov a ha
        have h2 : a.start ≤ c.start := hcross a ha c (List.mem_cons_self ..)
        by_contra h3
        exact h1 ⟨by omega, by omega⟩
      apply ih (acc ++ [toSpan c]) hlpos2 hlsort2
      · intro a ha
        rcases List.mem_append.mp ha with ha | ha
        · exact hapos a ha
        · rw [List.mem_singleton.mp ha]
          exact hcpos
      · refine List.pairwise_append.mpr ⟨hapw, List.pairwise_singleton .., ?_⟩
        intro a ha b hb2
        rw [List.mem_singleton.mp hb2]
        exact hend a ha
      · intro a ha x hx
        rcases List.mem_append.mp ha with ha | ha
        · exact hcross a ha x (List.mem_cons_of_mem _ hx)
        · rw [List.mem_singleton.mp ha]
          exact hhead x hx
    · -- the candidate is rejected: the accumulator is unchanged
      rw [addIfNoOverlap_pos hb]
      exact ih acc hlpos2 hlsort2 hapos hapw
        (fun a ha x hx => hcross a ha x (List.mem_cons_of_mem _ hx))

/-- `candLe` ordering implies ascending starts. -/
theorem sortMatches_start_le (l : List Candidate) :
    List.Pairwise (fun a b : Candidate => a.start ≤ b.start) (sortMatches l) := by
  refine (sortMatches_sorted l).imp ?_
  intro a b hab
  rcases hab with h | ⟨h, _⟩
  · omega
  · omega

/-- The final span list is ascending and non-overlapping. -/
theorem highlightYara_sorted (text : List Char) :
    List.Pairwise (fun a b : Span => a.stop ≤ b.start) (highlightYara text) :=
  (filter_invariant (sortMatches (matchesAll text)) []
    sortMatches_pos (sortMatches_start_le _)
    (by simp) (by simp) (by simp)).2

/-- Every final span has a non-empty range. -/
theorem highlightYara_pos (text : List Char) :
    ∀ s ∈ highlightYara text, s.start < s.stop :=
  (filter_invariant (sortMatches (matchesAll text)) []
    sortMatches_pos (sortMatches_start_le _)
    (by simp) (by simp) (by simp)).1


/-- Key lemma for the priority tie-break: feeding the filter candidates of
positive length in `candLe`-sorted order (every accumulator element
starting no later than any remaining candidate), every element of the
result either was already in the accumulator or is a candidate that
(a) overlaps no original accumulator element and (b) has minimal priority
among the fed candidates that share its start position.  In particular at
most the first candidate of each start position — the one the stable sort
placed first, i.e. one of minimal priority — can ever be accepted. -/
theorem filter_min_priority :
    ∀ (l : List Candidate) (acc : List Candidate),
      (∀ c ∈ l, c.start < c.stop) →
      List.Pairwise candLe l →
      (∀ a ∈ acc, ∀ c ∈ l, a.start ≤ c.start) →
      ∀ c2 ∈ List.foldl addIfNoOverlapC acc l,
        c2 ∈ acc ∨
        (c2 ∈ l ∧ (∀ a ∈ acc, ¬ overlapsSpan c2 (toSpan a)) ∧
         (∀ c1 ∈ l, c1.start = c2.start → c2.priority ≤ c1.priority)) := by
  intro l
  induction l with
  | nil => intro acc _ _ _ c2 h; exact Or.inl h
  | cons c rest ih =>
    intro acc hlpos hlsort hcross c2 h
    have hlpos2 : ∀ x ∈ rest, x.start < x.stop :=
      fun x hx => hlpos x (List.mem_cons_of_mem _ hx)
    have hhead := (List.pairwise_cons.mp hlsort).1
    have hlsort2 := (List.pairwise_cons.mp hlsort).2
    simp only [List.foldl_cons] at h
    rcases hb : acc.any fun a => decide (overlapsSpan c (toSpan a)) with _ | _
    · -- the head candidate is accepted
      rw [addIfNoOverlapC_neg hb] at h
      have hnov : ∀ a ∈ acc, ¬ overlapsSpan c (toSpan a) := by
        intro a ha
        have := List.any_eq_false.mp hb a ha
        simpa using this
      have hcross2 : ∀ a ∈ acc ++ [c], ∀ x ∈ rest, a.start ≤ x.start := by
        intro a ha x hx
        rcases List.mem_append.mp ha with ha | ha
        · exact hcross a ha x (List.mem_cons_of_mem _ hx)
        · rw [List.mem_singleton.mp ha]
          rcases hhead x hx with h1 | ⟨h1, _⟩ <;> omega
      rcases ih (acc ++ [c]) hlpos2 hlsort2 hcross2 c2 h with hacc | ⟨hmem, hnov2, hmin⟩
      · rcases List.mem_append.mp hacc with hacc | hacc
        · exact Or.inl hacc
        · rw [List.mem_singleton.mp hacc]
          refine Or.inr ⟨List.mem_cons_self .., hnov, ?_⟩
          intro c1 hc1 hstart
          rcases List.mem_cons.mp hc1 with rfl | hc1
          · omega
          · rcases hhead c1 hc1 with h1 | ⟨_, h1⟩
            · omega
            · exact h1
      · refine Or.inr ⟨List.mem_cons_of_mem _ hmem, ?_, ?_⟩
        · intro a ha
          exact hnov2 a (List.mem_append.mpr (Or.inl ha))
        · intro c1 hc1 hstart
          rcases List.mem_cons.mp hc1 with rfl | hc1
          · exfalso
            have hno := hnov2 c1 (List.mem_append.mpr (Or.inr (List.mem_singleton_self _)))
            have hc2pos : c2.start < c2.stop := hlpos2 c2 hmem
            have hcpos : c1.start < c1.stop := hlpos c1 (List.mem_cons_self ..)
            exact hno (by simp only [overlapsSpan, toSpan]; omega)
          · exact hmin c1 hc1 hstart
    · -- the head candidate is rejected: some accepted span overlaps it
      rw [addIfNoOverlapC_pos hb] at h
      have hcross2 : ∀ a ∈ acc, ∀ x ∈ rest, a.start ≤ x.start :=
        fun a ha x hx => hcross a ha x (List.mem_cons_of_mem _ hx)
      rcases ih acc hlpos2 hlsort2 hcross2 c2 h with hacc | ⟨hmem, hnov2, hmin⟩
      · exact Or.inl hacc
      · refine Or.inr ⟨List.mem_cons_of_mem _ hmem, hnov2, ?_⟩
        intro c1 hc1 hstart
        rcases List.mem_cons.mp hc1 with rfl | hc1
        · exfalso
          obtain ⟨a0, ha0, hd⟩ := List.any_eq_true.mp hb
          have hov : overlapsSpan c1 (toSpan a0) := of_decide_eq_true hd
          have hno := hnov2 a0 ha0
          have hc2pos : c2.start < c2.stop := hlpos2 c2 hmem
          have ha0s : a0.start ≤ c1.start := hcross a0 ha0 c1 (List.mem_cons_self ..)
          have hov2 : c1.start < a0.stop ∧ a0.start < c1.stop := by
            simpa [overlapsSpan, toSpan] using hov
          exact hno (by simp only [overlapsSpan, toSpan]; omega)
        · exact hmin c1 hc1 hstart


/-! ## The resolver as described by the specification (for refinement) -/

/-- Modelled from the spec: acceptance condition of the conflict resolver,
"accept it if and only if it does not overlap any already-accepted span
(`candidate.start < accepted.end AND candidate.end > accepted.start`
defines overlap, tested against every previously accepted item)". -/
def specAccepts (acc : List Span) (c : Candidate) : Prop :=
  ∀ a ∈ acc, ¬ overlapsSpan c a

instance : ∀ acc c, Decidable (specAccepts acc c) := fun acc _ =>
  List.decidableBAll _ acc

/-- Modelled from the spec: the conflict resolver, "stable-sort all
candidates by (start ascending, priority ascending)", then walk the sorted
list once, accepting by `specAccepts`. -/
def specResolve (l : List Candidate) : List Span :=
  (sortMatches l).foldl
    (fun acc c => if specAccepts acc c then acc ++ [toSpan c] else acc) []

/-- The `shouldAdd`/`break` loop of the source computes exactly the
spec-side acceptance: one step of the filter equals one step of the
spec-side walk. -/
theorem addIfNoOverlap_eq_spec (acc : List Span) (c : Candidate) :
    addIfNoOverlap acc c =
      if specAccepts acc c then acc ++ [toSpan c] else acc := by
  by_cases hs : specAccepts acc c
  · rw [if_pos hs, addIfNoOverlap_neg]
    rw [List.any_eq_false]
    intro a ha
    simpa using hs a ha
  · rw [if_neg hs, addIfNoOverlap_pos]
    rw [List.any_eq_true]
    simp only [specAccepts, not_forall] at hs
    obtain ⟨a, ha, hov⟩ := hs
    exact ⟨a, ha, by simpa using not_not.mp hov⟩

theorem foldl_addIfNoOverlap_eq_spec :
    ∀ (l : List Candidate) (acc : List Span),
      List.foldl addIfNoOverlap acc l =
        List.foldl (fun acc c => if specAccepts acc c then acc ++ [toSpan c] else acc) acc l := by
  intro l
  induction l with
  | nil => intro acc; rfl
  | cons c rest ih =>
    intro acc
    simp only [List.foldl_cons, addIfNoOverlap_eq_spec]
    exact ih _

/-- The source resolver (sort, then `filteredMatches` loop) computes the
resolver described by the specification. -/
theorem resolver_refines_spec (l : List Candidate) :
    filterOverlaps (sortMatches l) = specResolve l :=
  foldl_addIfNoOverlap_eq_spec (sortMatches l) []

/-! ## Lemmas about the block-comment matcher (for the unterminated case) -/

/-- Correctness of the `*/` search: a successful result points at an
occurrence of `*/` and no earlier position holds one. -/
theorem findCommentClose_some :
    ∀ (l : List Char) (k : Nat), findCommentClose l = some k →
      (l.drop k).take 2 = ['*', '/'] ∧
      ∀ j, j < k → (l.drop j).take 2 ≠ ['*', '/'] := by
  intro l
  induction l with
  | nil => intro k h; simp [findCommentClose] at h
  | cons c rest ih =>
    intro k h
    simp only [findCommentClose] at h
    split at h
    next hc =>
      injection h with h
      subst h
      refine ⟨?_, fun j hj => by omega⟩
      obtain ⟨hc1, hc2⟩ := hc
      cases rest with
      | nil => simp at hc2
      | cons d rest2 =>
        simp only [List.head?_cons, Option.some.injEq] at hc2
        simp [hc1, hc2]
    next hc =>
      obtain ⟨k2, hk2, hkk⟩ := Option.map_eq_some'.mp h
      obtain ⟨h1, h2⟩ := ih k2 hk2
      subst hkk
      refine ⟨by simpa using h1, ?_⟩
      intro j hj
      cases j with
      | zero =>
        cases rest with
        | nil => simp
        | cons d rest2 =>
          intro hcontra
          have h1 : c = '*' ∧ d = '/' := by simpa using hcontra
          exact hc ⟨h1.1, by simp [h1.2]⟩
      | succ j2 =>
        simpa using h2 j2 (by omega)

/-- If the search fails, `*/` occurs nowhere in the list. -/
theorem findCommentClose_none :
    ∀ (l : List Char), findCommentClose l = none →
      ∀ j, (l.drop j).take 2 ≠ ['*', '/'] := by
  intro l
  induction l with
  | nil => intro _ j; simp
  | cons c rest ih =>
    intro h j
    simp only [findCommentClose] at h
    split at h
    next => exact absurd h (by simp)
    next hc =>
      have hrest : findCommentClose rest = none := by
        cases hfc : findCommentClose rest with
        | none => rfl
        | some k => rw [hfc] at h; simp at h
      cases j with
      | zero =>
        cases rest with
        | nil => simp
        | cons d rest2 =>
          intro hcontra
          have h1 : c = '*' ∧ d = '/' := by simpa using hcontra
          exact hc ⟨h1.1, by simp [h1.2]⟩
      | succ j2 =>
        simpa using ih hrest j2


/-- Unfolding a successful block-comment match: leading `/*`, and the
closing position found by `findCommentClose` two characters in. -/
theorem multiCommentMatchAt_some :
    ∀ (l : List Char) (n : Nat), multiCommentMatchAt l = some n →
      ∃ k, findCommentClose (l.drop 2) = some k ∧ n = k + 4 ∧
        l.take 2 = ['/', '*'] := by
  intro l n h
  match l with
  | [] => simp [multiCommentMatchAt] at h
  | [c] => simp [multiCommentMatchAt] at h
  | c1 :: c2 :: rest =>
    simp only [multiCommentMatchAt] at h
    split at h
    next hc =>
      obtain ⟨k, hk, hkk⟩ := Option.map_eq_some'.mp h
      exact ⟨k, by simpa using hk, by omega, by simp [hc.1, hc.2]⟩
    next => exact absurd h (by simp)

/-- Soundness of the block-comment matcher: every reported range starts
with `/*`, ends with the nearest following `*/` (non-greedy), and is at
least four characters long. -/
theorem multiCommentMatches_sound :
    ∀ (text : List Char) (s e : Nat), (s, e) ∈ multiCommentMatches text →
      (text.drop s).take 2 = ['/', '*'] ∧ s + 4 ≤ e ∧
      (text.drop (e - 2)).take 2 = ['*', '/'] ∧
      ∀ j, s + 2 ≤ j → j < e - 2 → (text.drop j).take 2 ≠ ['*', '/'] := by
  intro text s e h
  obtain ⟨d, len, pr, h1, h2, h3⟩ :=
    mem_scanGo text 0 0 none s e (by simpa [multiCommentMatches, scanAll] using h)
  have hd : d = s := by omega
  subst hd
  obtain ⟨k, hk, hkk, htake⟩ := multiCommentMatchAt_some _ _ h3
  obtain ⟨hclose, hmin⟩ := findCommentClose_some _ _ hk
  have he : e = d + k + 4 := by omega
  refine ⟨htake, by omega, ?_, ?_⟩
  · have hdr : ((text.drop d).drop 2).drop k = text.drop (e - 2) := by
      rw [List.drop_drop, List.drop_drop]
      congr 1
      omega
    rw [← hdr]
    exact hclose
  · intro j hj1 hj2 hcontra
    have hdr : ((text.drop d).drop 2).drop (j - d - 2) = text.drop j := by
      rw [List.drop_drop, List.drop_drop]
      congr 1
      omega
    exact hmin (j - d - 2) (by omega) (by rw [hdr]; exact hcontra)


/-! ## The claims -/

/-- C1: For every input text, the final output span list is pairwise
non-overlapping and sorted ascending by start (for all `i < j`,
`spans[i].end ≤ spans[j].start`, here expressed via `List.Pairwise`), and
no two output spans share an identical `(start, end)` range. -/
theorem c1_output_sorted_nonoverlapping :
    ∀ text : List Char,
      List.Pairwise (fun a b : Span => a.stop ≤ b.start) (highlightYara text) ∧
      List.Pairwise (fun a b : Span => ¬(a.start = b.start ∧ a.stop = b.stop))
        (highlightYara text) := by
  intro text
  refine ⟨highlightYara_sorted text, ?_⟩
  refine (highlightYara_sorted text).imp_of_mem ?_
  intro a b ha hb hr
  have hbpos := highlightYara_pos text b hb
  rintro ⟨h1, h2⟩
  omega

/-- C2: The conflict resolver stable-sorts the pooled candidates by
(start ascending, priority ascending) and then, walking the sorted list
once, accepts a candidate if and only if it overlaps no previously
accepted span, with overlap defined as
`candidate.start < accepted.end AND candidate.end > accepted.start`;
ranges that merely touch are not overlapping, so both are kept.
The conjuncts: (1) the source filter on the sorted pool equals the
spec-side resolver (acceptance iff no overlap with any accepted span);
(2) the sort output is ordered by `candLe` (start, then priority);
(3) it is a permutation of the pool; (4) it is stable: candidates with
equal start and priority keep their relative order; (5) touching is not
overlap. -/
theorem c2_conflict_resolver :
    ∀ l : List Candidate,
      (filterOverlaps (sortMatches l) = specResolve l) ∧
      List.Pairwise candLe (sortMatches l) ∧
      List.Perm (sortMatches l) l ∧
      (∀ a b : Candidate, a.start = b.start → a.priority = b.priority →
        List.Sublist [a, b] l → List.Sublist [a, b] (sortMatches l)) ∧
      (∀ (c : Candidate) (a : Span),
        c.start = a.stop ∨ c.stop = a.start → ¬ overlapsSpan c a) := by
  intro l
  refine ⟨resolver_refines_spec l, sortMatches_sorted l, sortMatches_perm l, ?_, ?_⟩
  · intro a b hstart hprio hsub
    exact List.pair_sublist_insertionSort (Or.inr ⟨hstart, le_of_eq hprio⟩) hsub
  · intro c a htouch hov
    obtain ⟨h1, h2⟩ := hov
    rcases htouch with h | h <;> omega

/-- Witness for C2 at concrete inputs: the resolver equation at a
one-candidate pool, and stability for two equal-key candidates. -/
theorem c2_conflict_resolver_witness :
    (filterOverlaps (sortMatches [⟨0, 1, Category.comment, 1⟩]) =
      specResolve [⟨0, 1, Category.comment, 1⟩]) ∧
    List.Sublist [⟨0, 1, Category.number, 5⟩, ⟨0, 2, Category.number, 5⟩]
      (sortMatches [⟨0, 1, Category.number, 5⟩, ⟨0, 2, Category.number, 5⟩]) :=
  ⟨(c2_conflict_resolver [⟨0, 1, Category.comment, 1⟩]).1,
   (c2_conflict_resolver _).2.2.2.1 _ _ rfl rfl (List.Sublist.refl _)⟩

/-- C3: For any two pooled candidates with identical start position, if
either of them is retained in the output then the retained one is the one
with the lower priority number, regardless of their end positions (hence in
particular for two candidates with identical `(start, end)` range the
lower-priority-number one wins): the higher-numbered candidate is never
among the accepted candidates, and the output is exactly the projection of
the accepted candidates. -/
theorem c3_priority_tiebreak :
    ∀ (text : List Char) (c1 c2 : Candidate),
      c1 ∈ matchesAll text → c2 ∈ matchesAll text →
      c1.start = c2.start → c1.priority < c2.priority →
      c2 ∉ acceptedCandidates text ∧
      highlightYara text = (acceptedCandidates text).map toSpan := by
  intro text c1 c2 h1 h2 hstart hprio
  refine ⟨?_, filterOverlaps_eq_map _⟩
  intro hc2acc
  rcases filter_min_priority (sortMatches (matchesAll text)) []
      sortMatches_pos (sortMatches_sorted _) (by simp) c2 hc2acc with
    h | ⟨_, _, hmin⟩
  · simp at h
  · have := hmin c1 (mem_sortMatches.mpr h1) hstart
    omega

/-- Witness for C3: in `rule foo {`, the `rule` keyword is claimed both by
the rule-declaration pattern (priority 3) and the generic keyword pattern
(priority 8) with the identical `(0, 4)` range; the priority-8 candidate is
not accepted. -/
theorem c3_priority_tiebreak_witness :
    (⟨0, 4, Category.keyword, 8⟩ : Candidate) ∉
      acceptedCandidates ['r', 'u', 'l', 'e', ' ', 'f', 'o', 'o', ' ', '\x7b'] ∧
    highlightYara ['r', 'u', 'l', 'e', ' ', 'f', 'o', 'o', ' ', '\x7b'] =
      (acceptedCandidates ['r', 'u', 'l', 'e', ' ', 'f', 'o', 'o', ' ', '\x7b']).map toSpan :=
  c3_priority_tiebreak _ ⟨0, 4, Category.keyword, 3⟩ ⟨0, 4, Category.keyword, 8⟩
    (by decide) (by decide) (by decide) (by decide)

/-- C4: Every output span is exactly the range (and category) of some
pooled candidate — a losing candidate is dropped whole, and no span is ever
emitted truncated or trimmed. -/
theorem c4_no_truncation :
    ∀ (text : List Char) (s : Span), s ∈ highlightYara text →
      ∃ c ∈ matchesAll text,
        s.start = c.start ∧ s.stop = c.stop ∧ s.category = c.category := by
  intro text s hs
  rcases mem_foldl_addIfNoOverlap (sortMatches (matchesAll text)) [] s
      (by simpa [highlightYara, filterOverlaps] using hs) with h | ⟨c, hc, rfl⟩
  · simp at h
  · exact ⟨c, mem_sortMatches.mp hc, rfl, rfl, rfl⟩

/-- Witness for C4 at `$`: the single output span is the variable match. -/
theorem c4_no_truncation_witness :
    ∃ c ∈ matchesAll ['$'],
      (⟨0, 1, Category.variableName⟩ : Span).start = c.start ∧
      (⟨0, 1, Category.variableName⟩ : Span).stop = c.stop ∧
      (⟨0, 1, Category.variableName⟩ : Span).category = c.category :=
  c4_no_truncation ['$'] ⟨0, 1, Category.variableName⟩ (by decide)

/-- C5: The scan is deterministic: it is a pure function of the text (the
source recomputes everything from `view.state.doc.toString()` and keeps no
state between calls), so scanning the same text twice yields identical
output span lists. -/
theorem c5_deterministic :
    ∀ t1 t2 : List Char, t1 = t2 → highlightYara t1 = highlightYara t2 := by
  intro t1 t2 h
  rw [h]

/-- Witness for C5 at a concrete text. -/
theorem c5_deterministic_witness :
    highlightYara ['$'] = highlightYara ['$'] :=
  c5_deterministic ['$'] ['$'] rfl

/-- C6: The scan function is total (it is a Lean function, defined for
every text including the empty text — the source never throws: the only
throwing operation, `RangeSetBuilder.add` on out-of-order ranges, is fed
the sorted non-overlapping list), its output always satisfies the span
invariants, and when no pattern produces any candidate the output is the
empty list; in particular the empty text yields the empty list. -/
theorem c6_total_scan :
    ∀ text : List Char,
      List.Pairwise (fun a b : Span => a.stop ≤ b.start) (highlightYara text) ∧
      (∀ s ∈ highlightYara text, s.start < s.stop) ∧
      (matchesAll text = [] → highlightYara text = []) ∧
      highlightYara [] = [] := by
  intro text
  refine ⟨highlightYara_sorted text, highlightYara_pos text, ?_, rfl⟩
  intro h
  simp [highlightYara, sortMatches, h, filterOverlaps]

/-- Witness for C6: the empty text has an empty pool and empty output. -/
theorem c6_total_scan_witness :
    matchesAll [] = [] ∧ highlightYara [] = [] :=
  ⟨by decide, (c6_total_scan []).2.2.1 (by decide)⟩

/-- C7: Every pooled candidate, and hence every output span, satisfies
`start < end`: no pattern in the catalogue can yield a zero-length match,
so a zero-length span is never emitted for any input text. -/
theorem c7_positive_spans :
    ∀ text : List Char,
      (∀ c ∈ matchesAll text, c.start < c.stop) ∧
      (∀ s ∈ highlightYara text, s.start < s.stop) :=
  fun text => ⟨matchesAll_pos text, highlightYara_pos text⟩

/-- Witness for C7: the bare `$` candidate of the text `$`. -/
theorem c7_positive_spans_witness :
    (⟨0, 1, Category.variableName, 3⟩ : Candidate) ∈ matchesAll ['$'] ∧
    (0 : Nat) < 1 :=
  ⟨by decide, (c7_positive_spans ['$']).1 ⟨0, 1, Category.variableName, 3⟩ (by decide)⟩

/-- C8, counterexample: the claim asserts that a `/*` with no closing `*/`
still produces a comment match extending to the end of the text.  On the
text `/*a` — which contains `/*` at position 0 and no `*/` anywhere — the
block-comment matcher produces no match at all: `multiCommentRegex`
requires the literal `*/`, so the claimed match `(0, 3)` does not exist. -/
theorem c8_unterminated_counterexample :
    multiCommentMatches ['/', '*', 'a'] = [] := by decide

/-- C8, amended: the block-comment matcher matches each block comment
non-greedily to the nearest `*/` (every reported range starts with `/*`
and ends with the first `*/` after the opener); but when the text contains
a `/*` with no closing `*/` anywhere after it, that `/*` produces no match
at all (rather than matching to the end of the text). -/
theorem c8_block_comment_amended :
    ∀ text : List Char,
      (∀ s e, (s, e) ∈ multiCommentMatches text →
        (text.drop s).take 2 = ['/', '*'] ∧ s + 4 ≤ e ∧
        (text.drop (e - 2)).take 2 = ['*', '/'] ∧
        ∀ j, s + 2 ≤ j → j < e - 2 → (text.drop j).take 2 ≠ ['*', '/']) ∧
      (∀ p, (∀ j, p + 2 ≤ j → (text.drop j).take 2 ≠ ['*', '/']) →
        ∀ e2, (p, e2) ∉ multiCommentMatches text) := by
  intro text
  refine ⟨multiCommentMatches_sound text, ?_⟩
  intro p hno e2 hmem
  obtain ⟨_, hlen, hclose, _⟩ := multiCommentMatches_sound text p e2 hmem
  exact hno (e2 - 2) (by omega) hclose

/-- Witness for C8 (amended) at `/**/`: the reported match `(0, 4)` closes
with `*/` at position 2. -/
theorem c8_block_comment_amended_witness :
    (List.take 2 (List.drop (4 - 2) ['/', '*', '*', '/'])) = ['*', '/'] :=
  ((c8_block_comment_amended ['/', '*', '*', '/']).1 0 4 (by decide)).2.2.1

/-- The input of the C9 scenario: `// hello\nrule foo { condition: true }`. -/
def c9Input : List Char :=
  ['/', '/', ' ', 'h', 'e', 'l', 'l', 'o', '\n', 'r', 'u', 'l', 'e', ' ',
   'f', 'o', 'o', ' ', '\x7b', ' ', 'c', 'o', 'n', 'd', 'i', 't', 'i', 'o',
   'n', ':', ' ', 't', 'r', 'u', 'e', ' ', '\x7d']

/-- C9, counterexample: the claim asserts the output contains no operator
span, but the colon after `condition` (position 29) is matched by
`operatorRegex`, overlaps nothing, and survives the filter: the output
does contain an operator span. -/
theorem c9_scenario_counterexample :
    (⟨29, 30, Category.operator⟩ : Span) ∈ highlightYara c9Input := by decide

/-- C9, amended: on `// hello\nrule foo { condition: true }` the scan
outputs exactly a comment span over `// hello`, a keyword span over
`rule`, a rule-name span over `foo`, a keyword span over `condition`, an
operator span over the `:`, and a boolean-atom span over `true` — i.e. the
claimed list plus one operator span over the colon; there are indeed no
number spans. -/
theorem c9_scenario_amended :
    highlightYara c9Input =
      [⟨0, 8, Category.comment⟩, ⟨9, 13, Category.keyword⟩,
       ⟨14, 17, Category.ruleName⟩, ⟨20, 29, Category.keyword⟩,
       ⟨29, 30, Category.operator⟩, ⟨31, 35, Category.atom⟩] := by decide

/-- C10: Whenever the pooled candidate list is non-empty, the first
candidate in the sorted (start, priority) order is always accepted by the
overlap filter (it becomes the head of the output), and consequently if
any pattern matcher finds at least one match the final output span list is
non-empty. -/
theorem c10_first_candidate_accepted :
    ∀ text : List Char,
      (∀ c rest, sortMatches (matchesAll text) = c :: rest →
        (highlightYara text).head? = some (toSpan c)) ∧
      (matchesAll text ≠ [] → highlightYara text ≠ []) := by
  intro text
  have hmain : ∀ c rest, sortMatches (matchesAll text) = c :: rest →
      (highlightYara text).head? = some (toSpan c) := by
    intro c rest heq
    have h0 : highlightYara text = List.foldl addIfNoOverlap [toSpan c] rest := by
      simp [highlightYara, filterOverlaps, heq, addIfNoOverlap]
    obtain ⟨ext, hext⟩ := foldl_addIfNoOverlap_prefix rest [toSpan c]
    rw [h0, hext]
    rfl
  refine ⟨hmain, ?_⟩
  intro hne
  cases hs : sortMatches (matchesAll text) with
  | nil =>
    exfalso
    have hp := sortMatches_perm (matchesAll text)
    rw [hs] at hp
    exact hne hp.symm.eq_nil
  | cons c rest =>
    intro hnil
    have := hmain c rest hs
    rw [hnil] at this
    simp at this

/-- Witness for C10 at `$`: the sorted pool is the single variable
candidate, which heads the output; the output is non-empty. -/
theorem c10_first_candidate_accepted_witness :
    (highlightYara ['$']).head? = some (toSpan ⟨0, 1, Category.variableName, 3⟩) ∧
    highlightYara ['$'] ≠ [] :=
  ⟨(c10_first_candidate_accepted ['$']).1 ⟨0, 1, Category.variableName, 3⟩ [] (by decide),
   (c10_first_candidate_accepted ['$']).2 (by decide)⟩

end Yara
